import Mathlib

/-!
Verification of the snap-bytecode syncing core of `eth/protocols/sstorage/sync.go`
(ethstorage/go-ethereum).

The Go code is shallowly embedded: byte strings (`[]byte`) become `List Nat`,
32-byte content hashes (`common.Hash`) become `Nat`, peer identifiers become
`String`, the keccak-256 primitive is an abstract parameter `keccak` (it is an
external collaborator of the core), Go maps used as sets become duplicate-free
`List`s with an `insertSet` operation, and Go maps used as key-value ledgers
become association lists queried with `List.lookup`.  Channel-based hand-offs
(`scheduleRevertBytecodeRequest` posting on `req.revert`, consumed by the event
loop which calls `revertBytecodeRequest`) are modelled as the loop-side effect
executed in place: the sequential composition that the one-shot `stale` flag
enforces.  Per-request runtime artefacts living on the Go request object (the
`stale` channel, the `timeout` timer) are modelled as sets of request ids in the
syncer state (`staleClosed`, `timerActive`).
-/

namespace SStorage

/-- A raw bytecode blob (`[]byte`). -/
abbrev Blob := List Nat

/-- A 32-byte content hash (`common.Hash`), abstracted to `Nat`. -/
abbrev Hash := Nat

/-- Insert into a Go map used as a set (`m[k] = struct{}{}`): no duplicate keys. -/
def insertSet {α : Type} [DecidableEq α] (x : α) (s : List α) : List α :=
  if x ∈ s then s else x :: s

/-- The response-validation loop of `onByteCodes` (sync.go lines 1069-1089):
a single linear scan over the delivered blobs with a monotone cursor `j` over
the request's hash manifest.  Positions skipped by the cursor keep their `nil`
(`none`) initialisation; if the cursor runs off the manifest while blobs remain
the loop returns the "unexpected bytecode" error, modelled as `none`. -/
def validateReply (keccak : Blob → Hash) : List Blob → List Hash → Option (List (Option Blob))
  | [], manifest => some (manifest.map fun _ => none)
  | _ :: _, [] => none
  | b :: bs, h :: hs =>
      if keccak b = h then
        (validateReply keccak bs hs).map (fun rest => some b :: rest)
      else
        (validateReply keccak (b :: bs) hs).map (fun rest => none :: rest)

/-- The relation between a validated `codes` slot and its manifest hash: a
delivered blob at a slot must hash to the hash at that slot. -/
def SlotMatches (keccak : Blob → Hash) (s : Option Blob) (h : Hash) : Prop :=
  ∀ b, s = some b → keccak b = h

/-- A reply `bs` is an in-order subsequence of the manifest exactly when some
aligned `Option` vector `sel` over the manifest flattens to it. -/
def InOrderSubsequence (keccak : Blob → Hash) (bs : List Blob) (manifest : List Hash) : Prop :=
  ∃ sel : List (Option Blob),
    List.Forall₂ (SlotMatches keccak) sel manifest ∧ sel.filterMap id = bs

/-- `maxRequestSize` (sync.go line 63): high cap, in bytes, for a single request. -/
def maxRequestSize : Nat := 512 * 1024

/-- `maxCodeRequestCount` (sync.go line 73): the maximum number of bytecode
blobs requested in a single query, `maxRequestSize / (24 * 1024) * 4` with Go
integer division. -/
def maxCodeRequestCount : Nat := maxRequestSize / (24 * 1024) * 4

/-- `maxTrieRequestCount` (sync.go line 79). -/
def maxTrieRequestCount : Nat := maxRequestSize / 512

/-- `accountConcurrency` (sync.go line 85): number of chunks the account trie is
split into. -/
def accountConcurrency : Nat := 16

/-- An `accountTask` restricted to the fields the bytecode pipeline touches:
`codeTasks` (the pending code-hash set), and the `res.accounts` code hashes with
the parallel `needCode` flags and the outstanding-`pend` counter that
`processBytecodeResponse` updates. -/
structure AccountTask where
  codeTasks : List Hash
  resAccounts : List Hash
  needCode : List Bool
  pend : Nat
  deriving Repr, DecidableEq

/-- A `bytecodeRequest` (sync.go lines 105-118) restricted to its pure data:
peer, id, the ordered hash manifest and the owning task.  The Go `task` pointer
is modelled by a task id resolved in the syncer state; the `stale` channel and
`timeout` timer live in the syncer state keyed by the request id. -/
structure Req where
  peer : String
  id : Nat
  hashes : List Hash
  taskId : Nat
  deriving Repr, DecidableEq

/-- A verified `bytecodeResponse` (sync.go lines 121-126): hashes plus the
parallel codes array (`none` = missing). -/
structure BytecodeResponse where
  taskId : Nat
  hashes : List Hash
  codes : List (Option Blob)
  deriving Repr, DecidableEq

/-- The `Syncer` fields of the sync-phase bytecode pipeline.  `staleClosed` is
the set of request ids whose one-shot `stale` channel has been closed;
`timerActive` the set of ids whose timeout timer is still armed (`Stop` returns
true exactly on members); `codeStore` the key-value rows written by flushed code
batches (`rawdb.WriteCode`). -/
structure SyncerState where
  peers : List String
  statelessPeers : List String
  bytecodeIdlers : List String
  bytecodeReqs : List (Nat × Req)
  staleClosed : List Nat
  timerActive : List Nat
  tasks : List (Nat × AccountTask)
  bytecodeSynced : Nat
  bytecodeBytes : Nat
  codeStore : List (Hash × Blob)
  deriving Repr, DecidableEq

/-- Re-insert a batch of hashes into the owning task's pending code set
(`req.task.codeTasks[hash] = struct{}{}` for each hash of the manifest). -/
def addCodeTasks (tasks : List (Nat × AccountTask)) (tid : Nat) (hs : List Hash) :
    List (Nat × AccountTask) :=
  tasks.map fun p =>
    if p.1 = tid then (p.1, { p.2 with codeTasks := hs.foldl (fun s h => insertSet h s) p.2.codeTasks })
    else p

/-- `revertBytecodeRequest` (sync.go lines 851-872): if the request's `stale`
channel is already closed, return at once; otherwise close it, delete the id
from the `bytecodeReqs` ledger, stop the timeout timer and mark every manifest
hash as pending again in the owning task. -/
def revertBytecodeRequest (st : SyncerState) (req : Req) : SyncerState :=
  if req.id ∈ st.staleClosed then st
  else
    { st with
      staleClosed := req.id :: st.staleClosed
      bytecodeReqs := st.bytecodeReqs.filter fun p => p.1 ≠ req.id
      timerActive := st.timerActive.filter fun x => x ≠ req.id
      tasks := addCodeTasks st.tasks req.taskId req.hashes }

/-- `onByteCodes` (sync.go lines 1012-1102), the sync-phase delivery callback,
as a sequential state transformer.  The non-blocking `update` signal and the
`rates.Update` throughput sample are external effects outside the model;
`scheduleRevertBytecodeRequest` (lines 835-844) posts the request on the revert
channel for the event loop, which runs `revertBytecodeRequest` — modelled here
as that loop-side effect executed in place.  The result's second component is
the Go return value, with a delivered response (sent on `req.deliver`) carried
as `.ok (some response)`. -/
def onByteCodes (keccak : Blob → Hash) (st : SyncerState) (peer : String) (id : Nat)
    (bytecodes : List Blob) : SyncerState × Except String (Option BytecodeResponse) :=
  -- Mark the delivering peer idle again if it is still registered.
  let st1 := if peer ∈ st.peers then { st with bytecodeIdlers := insertSet peer st.bytecodeIdlers } else st
  -- Ensure the response is for a valid request.
  match st1.bytecodeReqs.lookup id with
  | none => (st1, .ok none)
  | some req =>
    let st2 := { st1 with bytecodeReqs := st1.bytecodeReqs.filter fun p => p.1 ≠ id }
    -- `req.timeout.Stop()` fails iff the timer already fired.
    if id ∈ st2.timerActive then
      let st3 := { st2 with timerActive := st2.timerActive.filter fun x => x ≠ id }
      if bytecodes.isEmpty then
        -- Empty reply: peer has no state, mark it stateless and revert.
        let st4 := { st3 with statelessPeers := insertSet peer st3.statelessPeers }
        (revertBytecodeRequest st4 req, .ok none)
      else
        match validateReply keccak bytecodes req.hashes with
        | some codes => (st3, .ok (some ⟨req.taskId, req.hashes, codes⟩))
        | none => (revertBytecodeRequest st3 req, .error "unexpected bytecode")
    else
      (st2, .ok none)

/-- The inner account scan of `processBytecodeResponse` (sync.go lines
932-937): for every account of the task result whose code is still needed and
whose declared code hash equals the delivered hash, clear the flag and count one
`pend` decrement.  Returns the new `needCode` vector and the decrement count. -/
def markCode (hash : Hash) : List Hash → List Bool → List Bool × Nat
  | a :: as2, n :: ns =>
      let r := markCode hash as2 ns
      if n && (a == hash) then (false :: r.1, r.2 + 1) else (n :: r.1, r.2)
  | _, ns => (ns, 0)

/-- Modelled from the spec: the `ethdb` batch implementation is not part of the
analysed sources; per §4.6/§8 of the spec the byte counter advanced by
`batch.ValueSize()` equals the sum of the lengths of the queued blobs. -/
def batchValueSize (batch : List (Hash × Blob)) : Nat :=
  (batch.map fun p => p.2.length).sum

/-- The per-entry loop of `processBytecodeResponse` (sync.go lines 923-941)
over the (hash, code) pairs of a validated response: `nil` entries are
rescheduled into the task's pending code set, delivered entries update the
account `needCode`/`pend` bookkeeping and are queued into the write batch,
counted.  Returns the updated task, the batch and the delivered count. -/
def processCodes (task : AccountTask) :
    List (Hash × Option Blob) → AccountTask × List (Hash × Blob) × Nat
  | [] => (task, [], 0)
  | (h, none) :: rest =>
      processCodes { task with codeTasks := insertSet h task.codeTasks } rest
  | (h, some code) :: rest =>
      let m := markCode h task.resAccounts task.needCode
      let r := processCodes { task with needCode := m.1, pend := task.pend - m.2 } rest
      (r.1, (h, code) :: r.2.1, r.2.2 + 1)

/-- `processBytecodeResponse` (sync.go lines 917-959): integrate a validated
sync-phase response — reschedule misses, write the delivered codes in one
batch, then advance `bytecodeSynced`/`bytecodeBytes` by the batch's count and
byte size.  The Go `res.task` pointer is resolved through the task id (the
`forwardAccountTask` call-out on `pend = 0` is external to the bytecode core). -/
def processBytecodeResponse (st : SyncerState) (res : BytecodeResponse) : SyncerState :=
  match st.tasks.lookup res.taskId with
  | none => st
  | some task =>
    let r := processCodes task (res.hashes.zip res.codes)
    { st with
      tasks := st.tasks.map fun p => if p.1 = res.taskId then (p.1, r.1) else p
      codeStore := st.codeStore ++ r.2.1
      bytecodeSynced := st.bytecodeSynced + r.2.2
      bytecodeBytes := st.bytecodeBytes + batchValueSize r.2.1 }

/-- The persisted checkpoint (`SyncProgress`, sync.go lines 171-177 plus the
`Tasks` account-chunk snapshots it is stored with): account-task bounds and the
four progress counters. -/
structure ProgressModel where
  tasks : List (Nat × Nat)
  bytecodeSynced : Nat
  bytecodeBytes : Nat
  bytecodeHealSynced : Nat
  bytecodeHealBytes : Nat
  deriving Repr, DecidableEq

/-- The durable fields `loadSyncStatus` initialises. -/
structure LoadState where
  tasks : List (Nat × Nat)
  snapped : Bool
  bytecodeSynced : Nat
  bytecodeBytes : Nat
  bytecodeHealSynced : Nat
  bytecodeHealBytes : Nat
  deriving Repr, DecidableEq

/-- `common.BigToHash`: a big integer truncated to a 256-bit hash. -/
def bigToHash (n : Nat) : Nat := n % 2 ^ 256

/-- The fresh-plan loop of `loadSyncStatus` (sync.go lines 481-509): sixteen
contiguous chunks of the 256-bit hash space with
`step = 2^256 / accountConcurrency - 1`, clamping the final chunk's `Last` to
`0xFF…FF`.  The Go `for i` loop is realised with structural fuel
`accountConcurrency - i`. -/
def mkTasks (step : Nat) : Nat → Nat → Nat → List (Nat × Nat)
  | 0, _, _ => []
  | fuel + 1, i, next =>
      let last0 := bigToHash (next + step)
      let last := if i = accountConcurrency - 1 then 2 ^ 256 - 1 else last0
      (next, last) :: mkTasks step fuel (i + 1) (bigToHash (last + 1))

/-- The fresh account-chunk plan generated when no checkpoint can be used. -/
def freshTasks : List (Nat × Nat) :=
  mkTasks (2 ^ 256 / accountConcurrency - 1) accountConcurrency 0 0

/-- `loadSyncStatus` (sync.go lines 434-510) over the decoded checkpoint:
`none` abstracts both "no status in the database" and "JSON decode failed", in
which case all four counters are reset and the fresh plan is generated;
otherwise tasks and counters are restored and `snapped` is set iff no account
task remains. -/
def loadSyncStatus (status : Option ProgressModel) (st : LoadState) : LoadState :=
  match status with
  | some p =>
      { st with
        tasks := p.tasks
        snapped := p.tasks.isEmpty
        bytecodeSynced := p.bytecodeSynced
        bytecodeBytes := p.bytecodeBytes
        bytecodeHealSynced := p.bytecodeHealSynced
        bytecodeHealBytes := p.bytecodeHealBytes }
  | none =>
      { st with
        bytecodeSynced := 0, bytecodeBytes := 0
        bytecodeHealSynced := 0, bytecodeHealBytes := 0
        snapped := false
        tasks := freshTasks }

/-- Whether each task's `Next` bound is the predecessor's `Last` plus one. -/
def chainedOk : List (Nat × Nat) → Bool
  | (_, l1) :: (n2, l2) :: rest => (n2 == l1 + 1) && chainedOk ((n2, l2) :: rest)
  | _ => true

/-- The request-id generation loop of `assignBytecodeTasks` /
`assignBytecodeHealTasks` (sync.go lines 607-617 and 722-732): draw candidates
(`rand.Int63()`, modelled as a pre-drawn stream), skipping zero and ids already
present in the per-phase ledger. -/
def genReqId (ledger : List Nat) : List Nat → Option Nat
  | [] => none
  | r :: rest =>
      if r = 0 then genReqId ledger rest
      else if r ∈ ledger then genReqId ledger rest
      else some r

/-- The capacity clamp of `assignBytecodeTasks` (sync.go lines 619-621):
`if cap > maxCodeRequestCount { cap = maxCodeRequestCount }`. -/
def clampCap (c : Nat) : Nat := if c > maxCodeRequestCount then maxCodeRequestCount else c

/-- The hash-draining loop of `assignBytecodeTasks` (sync.go lines 622-629):
pop hashes off the pending set (deleting them) into the request manifest until
the capacity is reached.  Returns the manifest and the remaining pending set. -/
def selectLoop (cap : Nat) (acc : List Hash) : List Hash → List Hash × List Hash
  | [] => (acc, [])
  | h :: rest =>
      let acc2 := acc ++ [h]
      if cap ≤ acc2.length then (acc2, rest) else selectLoop cap acc2 rest

/-- The manifest selection of `assignBytecodeTasks`: clamp the peer capacity,
then drain the pending set. -/
def selectHashes (cap : Nat) (pending : List Hash) : List Hash × List Hash :=
  selectLoop (clampCap cap) [] pending

/-- `types.StateAccount`: the RLP-decoded account `{nonce, balance, storage
root, code hash}`. -/
structure StateAccount where
  nonce : Nat
  balance : Nat
  root : List Nat
  codeHash : List Nat
  deriving Repr, DecidableEq

/-- A row of the flat-state snapshot written by `onHealState`: either an
account row keyed by the account hash (`rawdb.WriteAccountSnapshot`) or a
storage-slot row keyed by the account and slot hashes
(`rawdb.WriteStorageSnapshot`). -/
inductive SnapRow where
  | account (key : List Nat) (blob : List Nat)
  | storage (accKey : List Nat) (slotKey : List Nat) (value : List Nat)
  deriving Repr, DecidableEq

/-- Modelled from the spec: the shared `stateWriter` batch's `ValueSize` (the
`ethdb` batch implementation is not part of the analysed sources) — the amount
of data queued for writing in the batch. -/
def rowSize : SnapRow → Nat
  | .account _ blob => blob.length
  | .storage _ _ v => v.length

/-- Pending batched rows plus the flushed database rows and the heal counters
touched by `onHealState`. -/
structure HealState where
  writer : List SnapRow
  db : List SnapRow
  accountHealed : Nat
  accountHealedBytes : Nat
  storageHealed : Nat
  storageHealedBytes : Nat
  deriving Repr, DecidableEq

/-- The trailing flush of `onHealState` (sync.go lines 1218-1221): if the
shared batch exceeds the ideal batch size, write it out and reset it. -/
def flushCheck (ideal : Nat) (st : HealState) : HealState :=
  if ideal < ((st.writer.map rowSize).sum) then
    { st with db := st.db ++ st.writer, writer := [] }
  else st

/-- Every snapshot row held by the syncer, flushed or still batched. -/
def allRows (st : HealState) : List SnapRow := st.db ++ st.writer

/-- `onHealState` (sync.go lines 1202-1223).  `decodeAccount` abstracts
`rlp.DecodeBytes` into a `types.StateAccount` (`none` = decode error) and
`slimAccountRLP` abstracts `snapshot.SlimAccountRLP`; both live outside the
analysed sources and are parameters.  A single-element path is an account row:
an undecodable value returns `nil` at once (before the flush check); a
decodable one is re-encoded in slim form and written, advancing the account
heal counters by `1 + HashLength + len(blob)`.  A two-element path is a storage
row written with the raw value.  The Go return value is always `nil`, so only
the state is returned. -/
def onHealState (decodeAccount : List Nat → Option StateAccount)
    (slimAccountRLP : StateAccount → List Nat) (ideal : Nat)
    (st : HealState) (paths : List (List Nat)) (value : List Nat) : HealState :=
  if paths.length = 1 then
    match decodeAccount value with
    | none => st
    | some acct =>
        let blob := slimAccountRLP acct
        flushCheck ideal
          { st with
            writer := st.writer ++ [SnapRow.account (paths.headD []) blob]
            accountHealed := st.accountHealed + 1
            accountHealedBytes := st.accountHealedBytes + (1 + 32 + blob.length) }
  else if paths.length = 2 then
    flushCheck ideal
      { st with
        writer := st.writer ++ [SnapRow.storage (paths.headD []) ((paths.drop 1).headD []) value]
        storageHealed := st.storageHealed + 1
        storageHealedBytes := st.storageHealedBytes + (1 + 2 * 32 + value.length) }
  else flushCheck ideal st

/-! ## Helper lemmas -/

theorem mem_insertSet {α : Type} [DecidableEq α] {a b : α} {s : List α} :
    a ∈ insertSet b s ↔ a = b ∨ a ∈ s := by
  unfold insertSet
  split
  · rename_i hb
    constructor
    · exact fun h => Or.inr h
    · rintro (rfl | h)
      · exact hb
      · exact h
  · simp

theorem self_mem_insertSet {α : Type} [DecidableEq α] (a : α) (s : List α) :
    a ∈ insertSet a s :=
  mem_insertSet.mpr (Or.inl rfl)

theorem mem_foldl_insertSet_of_mem {α : Type} [DecidableEq α] {x : α} :
    ∀ (hs init : List α), x ∈ init → x ∈ hs.foldl (fun s h => insertSet h s) init
  | [], _, hx => hx
  | h :: t, init, hx =>
      mem_foldl_insertSet_of_mem t (insertSet h init) (mem_insertSet.mpr (Or.inr hx))

theorem mem_foldl_insertSet {α : Type} [DecidableEq α] {x : α} :
    ∀ (hs init : List α), x ∈ hs → x ∈ hs.foldl (fun s h => insertSet h s) init
  | h :: t, init, hx => by
      rcases List.mem_cons.mp hx with rfl | hx2
      · exact mem_foldl_insertSet_of_mem t _ (self_mem_insertSet _ _)
      · exact mem_foldl_insertSet t _ hx2

theorem forall₂_mem_left {α β : Type} {R : α → β → Prop} {l₁ : List α} {l₂ : List β}
    (h : List.Forall₂ R l₁ l₂) : ∀ {a}, a ∈ l₁ → ∃ b ∈ l₂, R a b := by
  induction h with
  | nil => intro a ha; cases ha
  | cons hR hrest ih =>
      intro a ha
      rcases List.mem_cons.mp ha with rfl | ha2
      · exact ⟨_, List.mem_cons_self _ _, hR⟩
      · obtain ⟨b, hb, hRb⟩ := ih ha2
        exact ⟨b, List.mem_cons_of_mem _ hb, hRb⟩

theorem forall₂_none_of_filterMap_nil {α β : Type} {R : Option α → β → Prop} :
    ∀ {sel : List (Option α)} {ms : List β}, List.Forall₂ R sel ms →
      sel.filterMap id = [] → sel = ms.map fun _ => none := by
  intro sel ms h
  induction h with
  | nil => intro _; rfl
  | cons hR hrest ih =>
      rename_i s b sel' ms'
      intro hfm
      cases s with
      | some a => simp [List.filterMap_cons] at hfm
      | none =>
          simp only [List.filterMap_cons, id] at hfm
          simp [List.map_cons, ih hfm]

/-- Soundness of the validation scan: an in-order subsequence reply (described
by the selection vector `sel`) is aligned back to exactly `sel`, provided the
manifest has no duplicate hashes (it is drawn from a key set). -/
theorem validateReply_of_subsequence (keccak : Blob → Hash) :
    ∀ {sel : List (Option Blob)} {manifest : List Hash},
      List.Forall₂ (SlotMatches keccak) sel manifest → manifest.Nodup →
      validateReply keccak (sel.filterMap id) manifest = some sel := by
  intro sel manifest hrel
  induction hrel with
  | nil => intro _; rfl
  | cons hR hrest ih =>
      rename_i s h sel' ms
      intro hnd
      have hnds : ms.Nodup := (List.nodup_cons.mp hnd).2
      have hhm : h ∉ ms := (List.nodup_cons.mp hnd).1
      cases s with
      | some b =>
          have hb : keccak b = h := hR b rfl
          simp only [List.filterMap_cons, id]
          simp [validateReply, hb, ih hnds]
      | none =>
          simp only [List.filterMap_cons, id]
          cases hfm : sel'.filterMap id with
          | nil =>
              have hsel : sel' = ms.map fun _ => none :=
                forall₂_none_of_filterMap_nil hrest hfm
              simp [validateReply, hsel]
          | cons b bs =>
              have hbmem : b ∈ sel'.filterMap id := by
                rw [hfm]; exact List.mem_cons_self _ _
              have hsome : some b ∈ sel' := by
                rcases List.mem_filterMap.mp hbmem with ⟨a, ha, hab⟩
                simp only [id] at hab
                rw [hab] at ha; exact ha
              obtain ⟨h2, hh2, hR2⟩ := forall₂_mem_left hrest hsome
              have hkb : keccak b = h2 := hR2 b rfl
              have hne : keccak b ≠ h := by
                intro he
                rw [he] at hkb
                rw [hkb] at hhm
                exact hhm hh2
              have ihms := ih hnds
              rw [hfm] at ihms
              simp [validateReply, hne, ihms]

/-- Completeness of the validation scan: any accepted reply is the flattening
of the returned selection vector, each delivered slot hashing to its manifest
hash. -/
theorem validateReply_complete (keccak : Blob → Hash) :
    ∀ (manifest : List Hash) (bs : List Blob) (sel : List (Option Blob)),
      validateReply keccak bs manifest = some sel →
      List.Forall₂ (SlotMatches keccak) sel manifest ∧ sel.filterMap id = bs := by
  intro manifest
  induction manifest with
  | nil =>
      intro bs sel h
      cases bs with
      | nil =>
          simp only [validateReply, List.map_nil, Option.some.injEq] at h
          subst h
          exact ⟨List.Forall₂.nil, rfl⟩
      | cons b bs2 => simp [validateReply] at h
  | cons m ms ih =>
      intro bs sel h
      cases bs with
      | nil =>
          simp only [validateReply, Option.some.injEq] at h
          subst h
          refine ⟨List.Forall₂.cons (fun b hb => by cases hb) ?_, by simp⟩
          have hih := ih [] (ms.map fun _ => none) (by simp [validateReply])
          exact hih.1
      | cons b bs2 =>
          by_cases hk : keccak b = m
          · simp only [validateReply, if_pos hk] at h
            rcases Option.map_eq_some'.mp h with ⟨sel', hsel', rfl⟩
            obtain ⟨hf, hfm⟩ := ih bs2 sel' hsel'
            refine ⟨List.Forall₂.cons ?_ hf, by simp [hfm]⟩
            intro b' hb'
            cases hb'
            exact hk
          · simp only [validateReply, if_neg hk] at h
            rcases Option.map_eq_some'.mp h with ⟨sel', hsel', rfl⟩
            obtain ⟨hf, hfm⟩ := ih (b :: bs2) sel' hsel'
            exact ⟨List.Forall₂.cons (fun b' hb' => by cases hb') hf, by simp [hfm]⟩

theorem lookup_filter_ne {β : Type} (l : List (Nat × β)) (k : Nat) :
    (l.filter fun p => p.1 ≠ k).lookup k = none := by
  rw [List.lookup_eq_none_iff]
  intro p hp
  have hne := (List.mem_filter.mp hp).2
  simp only [decide_eq_true_eq] at hne
  simp only [bne_iff_ne, ne_eq]
  exact fun he => hne he.symm

theorem not_mem_filter_self (l : List Nat) (k : Nat) :
    k ∉ l.filter fun x => x ≠ k := by
  intro h
  have := (List.mem_filter.mp h).2
  simp at this

theorem lookup_addCodeTasks {tasks : List (Nat × AccountTask)} {tid : Nat} {t : AccountTask}
    (hl : tasks.lookup tid = some t) (hs : List Hash) :
    (addCodeTasks tasks tid hs).lookup tid =
      some { t with codeTasks := hs.foldl (fun s h => insertSet h s) t.codeTasks } := by
  induction tasks with
  | nil => cases hl
  | cons p rest ih =>
      obtain ⟨a, b⟩ := p
      by_cases hp : a = tid
      · subst hp
        rw [List.lookup_cons_self] at hl
        cases hl
        simp only [addCodeTasks, List.map_cons, if_pos rfl]
        exact List.lookup_cons_self
      · have hbeq : (tid == a) = false := by
          simp only [beq_eq_false_iff_ne, ne_eq]
          exact fun he => hp he.symm
        rw [List.lookup_cons, hbeq] at hl
        simp only [addCodeTasks, List.map_cons, if_neg hp]
        rw [List.lookup_cons, hbeq]
        exact ih hl

theorem lookup_replaceTask {tasks : List (Nat × AccountTask)} {tid : Nat} {t : AccountTask}
    (hl : tasks.lookup tid = some t) (v : AccountTask) :
    (tasks.map fun p => if p.1 = tid then (p.1, v) else p).lookup tid = some v := by
  induction tasks with
  | nil => cases hl
  | cons p rest ih =>
      obtain ⟨a, b⟩ := p
      by_cases hp : a = tid
      · subst hp
        simp only [List.map_cons, if_pos rfl]
        exact List.lookup_cons_self
      · have hbeq : (tid == a) = false := by
          simp only [beq_eq_false_iff_ne, ne_eq]
          exact fun he => hp he.symm
        rw [List.lookup_cons, hbeq] at hl
        simp only [List.map_cons, if_neg hp]
        rw [List.lookup_cons, hbeq]
        exact ih hl

/-- A hash is pending for a task in the syncer state. -/
def hashPending (st : SyncerState) (tid : Nat) (h : Hash) : Prop :=
  ∃ t, st.tasks.lookup tid = some t ∧ h ∈ t.codeTasks

/-- After a first (non-stale) revert, every manifest hash is pending again in
the owning task. -/
theorem revert_restores_hashes {st : SyncerState} {req : Req} {t : AccountTask}
    (hstale : req.id ∉ st.staleClosed) (htask : st.tasks.lookup req.taskId = some t) :
    ∀ h ∈ req.hashes, hashPending (revertBytecodeRequest st req) req.taskId h := by
  intro h hh
  unfold revertBytecodeRequest
  rw [if_neg hstale]
  exact ⟨_, lookup_addCodeTasks htask req.hashes, mem_foldl_insertSet _ _ hh⟩

/-- The write batch assembled from a response's (hash, code) pairs. -/
def codeBatch (l : List (Hash × Option Blob)) : List (Hash × Blob) :=
  l.filterMap fun p => p.2.map fun c => (p.1, c)

theorem processCodes_batch (l : List (Hash × Option Blob)) :
    ∀ task, (processCodes task l).2.1 = codeBatch l := by
  induction l with
  | nil => intro task; rfl
  | cons p rest ih =>
      intro task
      obtain ⟨h, c⟩ := p
      cases c with
      | none => simp only [processCodes, codeBatch, List.filterMap_cons, Option.map_none']
                exact ih _
      | some code =>
          simp only [processCodes, codeBatch, List.filterMap_cons, Option.map_some']
          rw [ih]
          rfl

theorem processCodes_count (l : List (Hash × Option Blob)) :
    ∀ task, (processCodes task l).2.2 = l.countP fun p => p.2.isSome := by
  induction l with
  | nil => intro task; rfl
  | cons p rest ih =>
      intro task
      obtain ⟨h, c⟩ := p
      cases c with
      | none => simp [processCodes, List.countP_cons, ih]
      | some code => simp [processCodes, List.countP_cons, ih]

theorem processCodes_codeTasks_mono (l : List (Hash × Option Blob)) :
    ∀ task x, x ∈ task.codeTasks → x ∈ (processCodes task l).1.codeTasks := by
  induction l with
  | nil => intro task x hx; exact hx
  | cons p rest ih =>
      intro task x hx
      obtain ⟨h, c⟩ := p
      cases c with
      | none => exact ih _ x (mem_insertSet.mpr (Or.inr hx))
      | some code => exact ih _ x hx

theorem processCodes_nil_pending (l : List (Hash × Option Blob)) :
    ∀ task, ∀ p ∈ l, p.2 = none → p.1 ∈ (processCodes task l).1.codeTasks := by
  induction l with
  | nil => intro task p hp; cases hp
  | cons q rest ih =>
      intro task p hp hnone
      obtain ⟨h, c⟩ := q
      rcases List.mem_cons.mp hp with rfl | hp2
      · cases hnone
        exact processCodes_codeTasks_mono rest _ _ (self_mem_insertSet _ _)
      · cases c with
        | none => exact ih _ p hp2 hnone
        | some code => exact ih _ p hp2 hnone

theorem countP_isSome_zip (hs : List Hash) :
    ∀ cs : List (Option Blob), cs.length = hs.length →
      ((hs.zip cs).countP fun p => p.2.isSome) = (cs.filterMap id).length := by
  induction hs with
  | nil =>
      intro cs hlen
      cases cs with
      | nil => rfl
      | cons c cs2 => simp at hlen
  | cons h hs2 ih =>
      intro cs hlen
      cases cs with
      | nil => simp at hlen
      | cons c cs2 =>
          have hlen2 : cs2.length = hs2.length := by simpa using hlen
          cases c with
          | none => simp [List.zip_cons_cons, List.countP_cons, ih cs2 hlen2]
          | some b => simp [List.zip_cons_cons, List.countP_cons, ih cs2 hlen2]

theorem batchValueSize_zip (hs : List Hash) :
    ∀ cs : List (Option Blob), cs.length = hs.length →
      batchValueSize ((hs.zip cs).filterMap fun p => p.2.map fun c => (p.1, c)) =
        ((cs.filterMap id).map List.length).sum := by
  induction hs with
  | nil =>
      intro cs hlen
      cases cs with
      | nil => rfl
      | cons c cs2 => simp at hlen
  | cons h hs2 ih =>
      intro cs hlen
      cases cs with
      | nil => simp at hlen
      | cons c cs2 =>
          have hlen2 : cs2.length = hs2.length := by simpa using hlen
          cases c with
          | none =>
              simp only [List.zip_cons_cons, List.filterMap_cons, Option.map_none', id]
              exact ih cs2 hlen2
          | some b =>
              simp only [List.zip_cons_cons, List.filterMap_cons, Option.map_some', id,
                batchValueSize, List.map_cons, List.sum_cons]
              have hrec := ih cs2 hlen2
              simp only [batchValueSize] at hrec
              rw [hrec]
theorem selectLoop_length_le (cap : Nat) :
    ∀ (l acc : List Hash), acc.length < cap → (selectLoop cap acc l).1.length ≤ cap := by
  intro l
  induction l with
  | nil => intro acc h; exact Nat.le_of_lt h
  | cons x rest ih =>
      intro acc h
      simp only [selectLoop]
      split
      · simpa using Nat.succ_le_of_lt h
      · rename_i hlt
        push_neg at hlt
        exact ih _ hlt

theorem selectLoop_append (cap : Nat) :
    ∀ (l acc : List Hash), (selectLoop cap acc l).1 ++ (selectLoop cap acc l).2 = acc ++ l := by
  intro l
  induction l with
  | nil => intro acc; simp [selectLoop]
  | cons x rest ih =>
      intro acc
      simp only [selectLoop]
      split
      · simp
      · rw [ih (acc ++ [x])]
        simp

theorem clampCap_eq_min (c : Nat) : clampCap c = min c maxCodeRequestCount := by
  unfold clampCap
  split <;> omega

theorem flushCheck_allRows (ideal : Nat) (s : HealState) :
    allRows (flushCheck ideal s) = allRows s := by
  unfold flushCheck allRows
  split <;> simp

theorem revert_preserves_fields (s : SyncerState) (r : Req) :
    (revertBytecodeRequest s r).statelessPeers = s.statelessPeers ∧
      (revertBytecodeRequest s r).bytecodeSynced = s.bytecodeSynced ∧
      (revertBytecodeRequest s r).bytecodeBytes = s.bytecodeBytes ∧
      (revertBytecodeRequest s r).codeStore = s.codeStore := by
  unfold revertBytecodeRequest
  split <;> exact ⟨rfl, rfl, rfl, rfl⟩

theorem mem_statelessPeers_revert {s : SyncerState} {r : Req} {p : String}
    (h : p ∈ s.statelessPeers) : p ∈ (revertBytecodeRequest s r).statelessPeers := by
  rw [(revert_preserves_fields s r).1]
  exact h

theorem revert_stale_noop {s : SyncerState} {r : Req} (h : r.id ∈ s.staleClosed) :
    revertBytecodeRequest s r = s := by
  unfold revertBytecodeRequest
  rw [if_pos h]

/-! ## Claim theorems -/

/-- Claim C1: for a bytecode request in flight whose manifest is `req.hashes`
(duplicate-free, as it is drawn from the keys of the task's pending code set)
and a non-empty reply delivering, in manifest order, the blobs of an in-order
subsequence of the manifest — described by the selection vector `sel`, each
delivered blob hashing to its manifest hash, omissions allowed — the validation
loop of `onByteCodes` produces the codes array `sel` itself: length equal to the
manifest's, the delivered blob at every served position and `nil` at every
omitted one, and the response is delivered without error. -/
theorem onByteCodes_subsequence_aligned (keccak : Blob → Hash) (st : SyncerState)
    (peer : String) (rid : Nat) (req : Req) (sel : List (Option Blob))
    (hreq : st.bytecodeReqs.lookup rid = some req)
    (htimer : rid ∈ st.timerActive)
    (hnd : req.hashes.Nodup)
    (hrel : List.Forall₂ (SlotMatches keccak) sel req.hashes)
    (hne : sel.filterMap id ≠ []) :
    (onByteCodes keccak st peer rid (sel.filterMap id)).2 =
        .ok (some ⟨req.taskId, req.hashes, sel⟩) ∧
      sel.length = req.hashes.length := by
  have hval : validateReply keccak (sel.filterMap id) req.hashes = some sel :=
    validateReply_of_subsequence keccak hrel hnd
  refine ⟨?_, hrel.length_eq⟩
  obtain ⟨b, bs, hbs⟩ : ∃ b bs, sel.filterMap id = b :: bs := by
    cases hfm : sel.filterMap id with
    | nil => exact absurd hfm hne
    | cons b bs => exact ⟨b, bs, rfl⟩
  rw [hbs] at hval ⊢
  unfold onByteCodes
  by_cases hp : peer ∈ st.peers
  · simp only [if_pos hp, hreq, htimer, if_true, List.isEmpty_cons, hval,
      Bool.false_eq_true, if_false]
  · simp only [if_neg hp, hreq, htimer, if_true, List.isEmpty_cons, hval,
      Bool.false_eq_true, if_false]

/-- Witness for C1: a three-hash manifest served with the first and third blob. -/
theorem onByteCodes_subsequence_aligned_witness :
    (onByteCodes (fun b => b.sum)
        { peers := ["p"], statelessPeers := [], bytecodeIdlers := [],
          bytecodeReqs := [(1, { peer := "p", id := 1, hashes := [1, 2, 3], taskId := 0 })],
          staleClosed := [], timerActive := [1],
          tasks := [(0, { codeTasks := [], resAccounts := [], needCode := [], pend := 0 })],
          bytecodeSynced := 0, bytecodeBytes := 0, codeStore := [] }
        "p" 1 [[1], [3]]).2 =
      .ok (some { taskId := 0, hashes := [1, 2, 3], codes := [some [1], none, some [3]] }) := by
  have h := onByteCodes_subsequence_aligned (fun b => b.sum)
      { peers := ["p"], statelessPeers := [], bytecodeIdlers := [],
        bytecodeReqs := [(1, { peer := "p", id := 1, hashes := [1, 2, 3], taskId := 0 })],
        staleClosed := [], timerActive := [1],
        tasks := [(0, { codeTasks := [], resAccounts := [], needCode := [], pend := 0 })],
        bytecodeSynced := 0, bytecodeBytes := 0, codeStore := [] }
      "p" 1 { peer := "p", id := 1, hashes := [1, 2, 3], taskId := 0 }
      [some [1], none, some [3]] rfl (by decide) (by decide)
      (List.Forall₂.cons (fun b hb => by cases hb; rfl)
        (List.Forall₂.cons (fun b hb => by cases hb)
          (List.Forall₂.cons (fun b hb => by cases hb; rfl) List.Forall₂.nil)))
      (by decide)
  exact h.1

/-- Claim C2: for a bytecode request in flight and a non-empty reply that is
not an in-order subsequence of the request's manifest, `onByteCodes` schedules
a revert of the request (every manifest hash is pending again in the owning
task) and returns the error "unexpected bytecode".  The embedded function is
total, so no reply can make the validation loop panic. -/
theorem onByteCodes_unexpected_reverts (keccak : Blob → Hash) (st : SyncerState)
    (peer : String) (rid : Nat) (req : Req) (t : AccountTask) (bytecodes : List Blob)
    (hreq : st.bytecodeReqs.lookup rid = some req)
    (htimer : rid ∈ st.timerActive)
    (hstale : req.id ∉ st.staleClosed)
    (htask : st.tasks.lookup req.taskId = some t)
    (hne : bytecodes ≠ [])
    (hnsub : ¬ InOrderSubsequence keccak bytecodes req.hashes) :
    (onByteCodes keccak st peer rid bytecodes).2 = .error "unexpected bytecode" ∧
      ∀ h ∈ req.hashes, hashPending (onByteCodes keccak st peer rid bytecodes).1 req.taskId h := by
  have hval : validateReply keccak bytecodes req.hashes = none := by
    cases hv : validateReply keccak bytecodes req.hashes with
    | none => rfl
    | some sel =>
        obtain ⟨hf, hfm⟩ := validateReply_complete keccak req.hashes bytecodes sel hv
        exact absurd ⟨sel, hf, hfm⟩ hnsub
  obtain ⟨b, bs, rfl⟩ : ∃ b bs, bytecodes = b :: bs := by
    cases bytecodes with
    | nil => exact absurd rfl hne
    | cons b bs => exact ⟨b, bs, rfl⟩
  unfold onByteCodes
  by_cases hp : peer ∈ st.peers
  · simp only [if_pos hp, hreq, htimer, if_true, List.isEmpty_cons, hval,
      Bool.false_eq_true, if_false]
    exact ⟨trivial, revert_restores_hashes hstale htask⟩
  · simp only [if_neg hp, hreq, htimer, if_true, List.isEmpty_cons, hval,
      Bool.false_eq_true, if_false]
    exact ⟨trivial, revert_restores_hashes hstale htask⟩

/-- Witness for C2: a single-hash manifest answered with an extra blob. -/
theorem onByteCodes_unexpected_reverts_witness :
    (onByteCodes (fun b => b.sum)
        { peers := ["p"], statelessPeers := [], bytecodeIdlers := [],
          bytecodeReqs := [(1, { peer := "p", id := 1, hashes := [1], taskId := 0 })],
          staleClosed := [], timerActive := [1],
          tasks := [(0, { codeTasks := [], resAccounts := [], needCode := [], pend := 0 })],
          bytecodeSynced := 0, bytecodeBytes := 0, codeStore := [] }
        "p" 1 [[1], [2]]).2 = .error "unexpected bytecode" := by
  have hnsub : ¬ InOrderSubsequence (fun b => b.sum) [[1], [2]] [1] := by
    rintro ⟨sel, hf, hfm⟩
    have hv := validateReply_of_subsequence (fun b => b.sum) hf (by decide)
    rw [hfm] at hv
    have hnone : validateReply (fun b => b.sum) [[1], [2]] [1] = none := by decide
    rw [hnone] at hv
    cases hv
  have h := onByteCodes_unexpected_reverts (fun b => b.sum)
      { peers := ["p"], statelessPeers := [], bytecodeIdlers := [],
        bytecodeReqs := [(1, { peer := "p", id := 1, hashes := [1], taskId := 0 })],
        staleClosed := [], timerActive := [1],
        tasks := [(0, { codeTasks := [], resAccounts := [], needCode := [], pend := 0 })],
        bytecodeSynced := 0, bytecodeBytes := 0, codeStore := [] }
      "p" 1 { peer := "p", id := 1, hashes := [1], taskId := 0 }
      { codeTasks := [], resAccounts := [], needCode := [], pend := 0 }
      [[1], [2]] rfl (by decide) (by decide) rfl (by decide) hnsub
  exact h.1

/-- Claim C3: for a bytecode request in flight answered with the empty list,
`onByteCodes` adds the delivering peer to the stateless set, schedules a revert
(every manifest hash returns to the owning task's pending code set) and returns
without error; no code row is written and neither `bytecodeSynced` nor
`bytecodeBytes` changes. -/
theorem onByteCodes_empty_refusal (keccak : Blob → Hash) (st : SyncerState)
    (peer : String) (rid : Nat) (req : Req) (t : AccountTask)
    (hreq : st.bytecodeReqs.lookup rid = some req)
    (htimer : rid ∈ st.timerActive)
    (hstale : req.id ∉ st.staleClosed)
    (htask : st.tasks.lookup req.taskId = some t) :
    (onByteCodes keccak st peer rid []).2 = .ok none ∧
      peer ∈ (onByteCodes keccak st peer rid []).1.statelessPeers ∧
      (∀ h ∈ req.hashes, hashPending (onByteCodes keccak st peer rid []).1 req.taskId h) ∧
      (onByteCodes keccak st peer rid []).1.bytecodeSynced = st.bytecodeSynced ∧
      (onByteCodes keccak st peer rid []).1.bytecodeBytes = st.bytecodeBytes ∧
      (onByteCodes keccak st peer rid []).1.codeStore = st.codeStore := by
  unfold onByteCodes
  by_cases hp : peer ∈ st.peers
  · simp only [if_pos hp, hreq, htimer, if_true, List.isEmpty_nil]
    exact ⟨trivial, mem_statelessPeers_revert (self_mem_insertSet _ _),
      revert_restores_hashes hstale htask,
      (revert_preserves_fields _ _).2.1,
      (revert_preserves_fields _ _).2.2.1,
      (revert_preserves_fields _ _).2.2.2⟩
  · simp only [if_neg hp, hreq, htimer, if_true, List.isEmpty_nil]
    exact ⟨trivial, mem_statelessPeers_revert (self_mem_insertSet _ _),
      revert_restores_hashes hstale htask,
      (revert_preserves_fields _ _).2.1,
      (revert_preserves_fields _ _).2.2.1,
      (revert_preserves_fields _ _).2.2.2⟩

/-- Witness for C3: an empty reply to a one-hash request. -/
theorem onByteCodes_empty_refusal_witness :
    (onByteCodes (fun b => b.sum)
        { peers := ["p"], statelessPeers := [], bytecodeIdlers := [],
          bytecodeReqs := [(1, { peer := "p", id := 1, hashes := [5], taskId := 0 })],
          staleClosed := [], timerActive := [1],
          tasks := [(0, { codeTasks := [], resAccounts := [], needCode := [], pend := 0 })],
          bytecodeSynced := 0, bytecodeBytes := 0, codeStore := [] }
        "p" 1 []).2 = .ok none ∧
      "p" ∈ (onByteCodes (fun b => b.sum)
        { peers := ["p"], statelessPeers := [], bytecodeIdlers := [],
          bytecodeReqs := [(1, { peer := "p", id := 1, hashes := [5], taskId := 0 })],
          staleClosed := [], timerActive := [1],
          tasks := [(0, { codeTasks := [], resAccounts := [], needCode := [], pend := 0 })],
          bytecodeSynced := 0, bytecodeBytes := 0, codeStore := [] }
        "p" 1 []).1.statelessPeers := by
  have h := onByteCodes_empty_refusal (fun b => b.sum)
      { peers := ["p"], statelessPeers := [], bytecodeIdlers := [],
        bytecodeReqs := [(1, { peer := "p", id := 1, hashes := [5], taskId := 0 })],
        staleClosed := [], timerActive := [1],
        tasks := [(0, { codeTasks := [], resAccounts := [], needCode := [], pend := 0 })],
        bytecodeSynced := 0, bytecodeBytes := 0, codeStore := [] }
      "p" 1 { peer := "p", id := 1, hashes := [5], taskId := 0 }
      { codeTasks := [], resAccounts := [], needCode := [], pend := 0 }
      rfl (by decide) (by decide) rfl
  exact ⟨h.1, h.2.1⟩

/-- Claim C4: the first revert of a bytecode request closes its `stale`
channel, removes its id from the `bytecodeReqs` ledger, stops its timeout
timer and re-inserts every manifest hash into the owning task's pending code
set; a subsequent revert of the same request observes the closed `stale`
channel and changes nothing — at most one terminal revert takes effect. -/
theorem revertBytecodeRequest_terminal_once (st : SyncerState) (req : Req) (t : AccountTask)
    (hstale : req.id ∉ st.staleClosed)
    (htask : st.tasks.lookup req.taskId = some t) :
    req.id ∈ (revertBytecodeRequest st req).staleClosed ∧
      (revertBytecodeRequest st req).bytecodeReqs.lookup req.id = none ∧
      req.id ∉ (revertBytecodeRequest st req).timerActive ∧
      (∀ h ∈ req.hashes, hashPending (revertBytecodeRequest st req) req.taskId h) ∧
      revertBytecodeRequest (revertBytecodeRequest st req) req = revertBytecodeRequest st req := by
  have hmem : req.id ∈ (revertBytecodeRequest st req).staleClosed := by
    unfold revertBytecodeRequest
    rw [if_neg hstale]
    exact List.mem_cons_self _ _
  refine ⟨hmem, ?_, ?_, revert_restores_hashes hstale htask, revert_stale_noop hmem⟩
  · unfold revertBytecodeRequest
    rw [if_neg hstale]
    exact lookup_filter_ne _ _
  · unfold revertBytecodeRequest
    rw [if_neg hstale]
    exact not_mem_filter_self _ _

/-- Witness for C4: reverting a one-hash request in a fresh state. -/
theorem revertBytecodeRequest_terminal_once_witness :
    1 ∈ (revertBytecodeRequest
        { peers := [], statelessPeers := [], bytecodeIdlers := [],
          bytecodeReqs := [(1, { peer := "p", id := 1, hashes := [5], taskId := 0 })],
          staleClosed := [], timerActive := [1],
          tasks := [(0, { codeTasks := [], resAccounts := [], needCode := [], pend := 0 })],
          bytecodeSynced := 0, bytecodeBytes := 0, codeStore := [] }
        { peer := "p", id := 1, hashes := [5], taskId := 0 }).staleClosed := by
  have h := revertBytecodeRequest_terminal_once
      { peers := [], statelessPeers := [], bytecodeIdlers := [],
        bytecodeReqs := [(1, { peer := "p", id := 1, hashes := [5], taskId := 0 })],
        staleClosed := [], timerActive := [1],
        tasks := [(0, { codeTasks := [], resAccounts := [], needCode := [], pend := 0 })],
        bytecodeSynced := 0, bytecodeBytes := 0, codeStore := [] }
      { peer := "p", id := 1, hashes := [5], taskId := 0 }
      { codeTasks := [], resAccounts := [], needCode := [], pend := 0 }
      (by decide) rfl
  exact h.1

/-- Claim C5: `processBytecodeResponse` advances `bytecodeSynced` by exactly
the number of non-nil blobs of the response and `bytecodeBytes` by exactly the
sum of their lengths (the batch's value size, modelled from the spec), writing
those blobs to the code store in one appended batch; every `nil` entry's hash
is returned to the owning task's pending code set. -/
theorem processBytecodeResponse_counters (st : SyncerState) (res : BytecodeResponse)
    (task : AccountTask)
    (htask : st.tasks.lookup res.taskId = some task)
    (hlen : res.codes.length = res.hashes.length) :
    (processBytecodeResponse st res).bytecodeSynced
        = st.bytecodeSynced + (res.codes.filterMap id).length ∧
      (processBytecodeResponse st res).bytecodeBytes
        = st.bytecodeBytes + ((res.codes.filterMap id).map List.length).sum ∧
      (processBytecodeResponse st res).codeStore
        = st.codeStore ++ codeBatch (res.hashes.zip res.codes) ∧
      ∀ p ∈ res.hashes.zip res.codes, p.2 = none →
        hashPending (processBytecodeResponse st res) res.taskId p.1 := by
  unfold processBytecodeResponse
  rw [htask]
  refine ⟨?_, ?_, ?_, ?_⟩
  · show st.bytecodeSynced + (processCodes task (res.hashes.zip res.codes)).2.2 = _
    rw [processCodes_count, countP_isSome_zip res.hashes res.codes hlen]
  · show st.bytecodeBytes + batchValueSize (processCodes task (res.hashes.zip res.codes)).2.1 = _
    rw [processCodes_batch]
    unfold codeBatch
    rw [batchValueSize_zip res.hashes res.codes hlen]
  · show st.codeStore ++ (processCodes task (res.hashes.zip res.codes)).2.1 = _
    rw [processCodes_batch]
  · intro p hp hnone
    exact ⟨_, lookup_replaceTask htask _,
      processCodes_nil_pending (res.hashes.zip res.codes) task p hp hnone⟩

/-- Witness for C5: one delivered and one missing blob count as one sync. -/
theorem processBytecodeResponse_counters_witness :
    (processBytecodeResponse
        { peers := [], statelessPeers := [], bytecodeIdlers := [],
          bytecodeReqs := [], staleClosed := [], timerActive := [],
          tasks := [(0, { codeTasks := [], resAccounts := [], needCode := [], pend := 0 })],
          bytecodeSynced := 0, bytecodeBytes := 0, codeStore := [] }
        { taskId := 0, hashes := [1, 2], codes := [some [5, 6], none] }).bytecodeSynced = 1 :=
  ((processBytecodeResponse_counters
      { peers := [], statelessPeers := [], bytecodeIdlers := [],
        bytecodeReqs := [], staleClosed := [], timerActive := [],
        tasks := [(0, { codeTasks := [], resAccounts := [], needCode := [], pend := 0 })],
        bytecodeSynced := 0, bytecodeBytes := 0, codeStore := [] }
      { taskId := 0, hashes := [1, 2], codes := [some [5, 6], none] }
      { codeTasks := [], resAccounts := [], needCode := [], pend := 0 }
      rfl (by decide)).1).trans (by decide)

/-- Claim C6: with no usable checkpoint, `loadSyncStatus` zeroes the four
progress counters and creates exactly `accountConcurrency` (= 16) account
tasks contiguously partitioning the 256-bit hash space: the first `Next` is 0,
each later `Next` is the previous `Last` plus one, and the final `Last` is
`2 ^ 256 - 1`. -/
theorem loadSyncStatus_fresh_plan (st : LoadState) :
    (loadSyncStatus none st).bytecodeSynced = 0 ∧
      (loadSyncStatus none st).bytecodeBytes = 0 ∧
      (loadSyncStatus none st).bytecodeHealSynced = 0 ∧
      (loadSyncStatus none st).bytecodeHealBytes = 0 ∧
      (loadSyncStatus none st).tasks = freshTasks ∧
      accountConcurrency = 16 ∧
      freshTasks.length = 16 ∧
      freshTasks.head?.map Prod.fst = some 0 ∧
      chainedOk freshTasks = true ∧
      freshTasks.getLast?.map Prod.snd = some (2 ^ 256 - 1) :=
  ⟨rfl, rfl, rfl, rfl, rfl, rfl, by decide, by decide, by decide, by decide⟩

/-- Claim C7: a request id produced by the generation loop is a non-zero
63-bit integer absent from the per-phase ledger at the moment of insertion, so
inserting it keeps the ledger's key set duplicate-free. -/
theorem genReqId_unique_nonzero :
    ∀ (stream keys : List Nat) (r : Nat),
      genReqId keys stream = some r →
      (∀ x ∈ stream, x < 2 ^ 63) →
      keys.Nodup →
      r ≠ 0 ∧ r < 2 ^ 63 ∧ r ∉ keys ∧ (r :: keys).Nodup := by
  intro stream
  induction stream with
  | nil => intro keys r h _ _; cases h
  | cons c rest ih =>
      intro keys r h hb hnd
      by_cases hc0 : c = 0
      · simp only [genReqId, if_pos hc0] at h
        exact ih keys r h (fun x hx => hb x (List.mem_cons_of_mem _ hx)) hnd
      · simp only [genReqId, if_neg hc0] at h
        by_cases hck : c ∈ keys
        · rw [if_pos hck] at h
          exact ih keys r h (fun x hx => hb x (List.mem_cons_of_mem _ hx)) hnd
        · rw [if_neg hck] at h
          cases h
          exact ⟨hc0, hb c (List.mem_cons_self _ _), hck, List.nodup_cons.mpr ⟨hck, hnd⟩⟩

/-- Witness for C7: the draw stream retries on zero and on a collision. -/
theorem genReqId_unique_nonzero_witness :
    (9 : Nat) ≠ 0 ∧ (9 : Nat) < 2 ^ 63 ∧ (9 : Nat) ∉ ([7] : List Nat) ∧
      ([9, 7] : List Nat).Nodup :=
  genReqId_unique_nonzero [0, 7, 9] [7] 9 (by decide) (by decide) (by decide)

/-- Claim C8: `maxCodeRequestCount` evaluates to 84, and the manifest drained
by `assignBytecodeTasks` holds at most `min(peer capacity, 84)` hashes (the
throughput tracker reports a capacity of at least one), the selected hashes
being split off the task's pending set before the request is issued. -/
theorem bytecode_request_sizing (cap : Nat) (pending : List Hash) (hc : 1 ≤ cap) :
    maxCodeRequestCount = 84 ∧
      (selectHashes cap pending).1.length ≤ min cap maxCodeRequestCount ∧
      (selectHashes cap pending).1 ++ (selectHashes cap pending).2 = pending := by
  refine ⟨by decide, ?_, ?_⟩
  · have hpos : 0 < clampCap cap := by
      rw [clampCap_eq_min]
      have hm : (0 : Nat) < maxCodeRequestCount := by decide
      omega
    have hlen := selectLoop_length_le (clampCap cap) pending [] (by simpa using hpos)
    rw [← clampCap_eq_min]
    exact hlen
  · have happ := selectLoop_append (clampCap cap) pending []
    simpa using happ

/-- Witness for C8: capacity two drains exactly two of three pending hashes. -/
theorem bytecode_request_sizing_witness :
    maxCodeRequestCount = 84 ∧
      (selectHashes 2 [10, 11, 12]).1.length ≤ min 2 maxCodeRequestCount ∧
      (selectHashes 2 [10, 11, 12]).1 ++ (selectHashes 2 [10, 11, 12]).2 = [10, 11, 12] :=
  bytecode_request_sizing 2 [10, 11, 12] (by decide)

/-- Claim C9: a reply whose request id is not in the `bytecodeReqs` ledger is
dropped by `onByteCodes` without error: no code row, no counter, no task and no
ledger change; if the delivering peer is no longer registered its idle flag is
not set either, so the whole state is untouched. -/
theorem onByteCodes_stale_reply_no_effect (keccak : Blob → Hash) (st : SyncerState)
    (peer : String) (rid : Nat) (bytecodes : List Blob)
    (habs : st.bytecodeReqs.lookup rid = none) :
    (onByteCodes keccak st peer rid bytecodes).2 = .ok none ∧
      (onByteCodes keccak st peer rid bytecodes).1.codeStore = st.codeStore ∧
      (onByteCodes keccak st peer rid bytecodes).1.bytecodeSynced = st.bytecodeSynced ∧
      (onByteCodes keccak st peer rid bytecodes).1.bytecodeBytes = st.bytecodeBytes ∧
      (onByteCodes keccak st peer rid bytecodes).1.tasks = st.tasks ∧
      (onByteCodes keccak st peer rid bytecodes).1.bytecodeReqs = st.bytecodeReqs ∧
      (peer ∉ st.peers → (onByteCodes keccak st peer rid bytecodes).1 = st) := by
  unfold onByteCodes
  by_cases hp : peer ∈ st.peers
  · simp only [if_pos hp, habs]
    exact ⟨trivial, trivial, trivial, trivial, trivial, trivial, fun h => absurd hp h⟩
  · simp only [if_neg hp, habs]
    exact ⟨trivial, trivial, trivial, trivial, trivial, trivial, fun _ => trivial⟩

/-- Witness for C9: a reply from an unregistered peer for an unknown id. -/
theorem onByteCodes_stale_reply_no_effect_witness :
    (onByteCodes (fun b => b.sum)
        { peers := ["p"], statelessPeers := [], bytecodeIdlers := [],
          bytecodeReqs := [], staleClosed := [], timerActive := [],
          tasks := [], bytecodeSynced := 0, bytecodeBytes := 0, codeStore := [] }
        "q" 5 [[1]]).1 =
      { peers := ["p"], statelessPeers := [], bytecodeIdlers := [],
        bytecodeReqs := [], staleClosed := [], timerActive := [],
        tasks := [], bytecodeSynced := 0, bytecodeBytes := 0, codeStore := [] } :=
  (onByteCodes_stale_reply_no_effect (fun b => b.sum)
      { peers := ["p"], statelessPeers := [], bytecodeIdlers := [],
        bytecodeReqs := [], staleClosed := [], timerActive := [],
        tasks := [], bytecodeSynced := 0, bytecodeBytes := 0, codeStore := [] }
      "q" 5 [[1]] rfl).2.2.2.2.2.2 (by decide)

/-- Claim C10: `onHealState` on a single-element path whose value does not
decode as a state account returns at once with nothing written — not even the
trailing flush runs; a decodable account is re-encoded in slim form and its
snapshot row is written. -/
theorem onHealState_undecodable_account (decodeAccount : List Nat → Option StateAccount)
    (slimAccountRLP : StateAccount → List Nat) (ideal : Nat) (st : HealState)
    (p : List Nat) (value : List Nat) :
    (decodeAccount value = none →
        onHealState decodeAccount slimAccountRLP ideal st [p] value = st) ∧
      (∀ a, decodeAccount value = some a →
        SnapRow.account p (slimAccountRLP a) ∈
          allRows (onHealState decodeAccount slimAccountRLP ideal st [p] value)) := by
  constructor
  · intro hdec
    unfold onHealState
    simp only [List.length_cons, List.length_nil, if_true, hdec]
  · intro a hdec
    unfold onHealState
    simp only [List.length_cons, List.length_nil, if_true, hdec, List.headD_cons]
    rw [flushCheck_allRows]
    unfold allRows
    simp

/-- Witness for C10: an undecodable account value leaves the state untouched. -/
theorem onHealState_undecodable_account_witness :
    onHealState
        (fun v => if v = [1] then some { nonce := 1, balance := 2, root := [3], codeHash := [4] } else none)
        (fun a => a.codeHash) 10
        { writer := [], db := [], accountHealed := 0, accountHealedBytes := 0,
          storageHealed := 0, storageHealedBytes := 0 }
        [[9]] [2] =
      { writer := [], db := [], accountHealed := 0, accountHealedBytes := 0,
        storageHealed := 0, storageHealedBytes := 0 } :=
  (onHealState_undecodable_account
      (fun v => if v = [1] then some { nonce := 1, balance := 2, root := [3], codeHash := [4] } else none)
      (fun a => a.codeHash) 10
      { writer := [], db := [], accountHealed := 0, accountHealedBytes := 0,
        storageHealed := 0, storageHealedBytes := 0 }
      [9] [2]).1 (by decide)

end SStorage
